import Mathlib

/-!
Shallow embedding of `src/__main__.py` of the overengineered-hangman
repository (a terminal Hangman game), together with theorems settling the
specification claims about it.

Encoding conventions:
* Python single-character strings held in `HangmanChar.char` become `Char`.
* Python `Optional[bool]` guess outcomes become `Option Bool`
  (`some true` = Correct, `some false` = Incorrect, `none` = Neutral).
* Python `int` fields (`lives`, `frequency`, `selection_range`,
  `difficulty`) become `Int`.
* The console I/O calls (`paint_UI`, `print`, `input`) are outside the
  model; `Game.turn` takes the solicited character as an argument and
  `Game.get_guess`'s acceptance test on a candidate input string is
  modelled by `acceptsGuess`.
* `random.choice` draws are modelled by an arbitrary stream
  `r : Nat → Nat` of indices (taken mod the pool length); the unbounded
  `while True` resampling loop of `HangmanWord.from_config` is modelled
  with explicit fuel (`none` = the loop has not terminated within `fuel`
  iterations), and `random.choice` on an empty pool is the Python
  `IndexError`.
-/

namespace Hangman

/-- `string.ascii_lowercase`, as a list of characters. -/
def asciiLowercase : List Char := "abcdefghijklmnopqrstuvwxyz".toList

/-- One character cell of the puzzle: `HangmanWord.HangmanChar`
(`src/__main__.py:39-57`). `__init__` sets `guessed = False`; `mk0` below
is that constructor. -/
structure HangmanChar where
  char : Char
  guessed : Bool
deriving DecidableEq, Repr

/-- `HangmanChar.__init__`: a fresh cell, not yet guessed. -/
def HangmanChar.mk0 (c : Char) : HangmanChar := ⟨c, false⟩

/-- The `guessable` property (`src/__main__.py:49-51`):
`self.char in ascii_lowercase`. On a single character the Python substring
test coincides with list membership. -/
def HangmanChar.guessable (hc : HangmanChar) : Bool :=
  hc.char ∈ asciiLowercase

/-- `HangmanChar.display` (`src/__main__.py:53-57`). -/
def HangmanChar.display (hc : HangmanChar) : String :=
  if hc.guessable then
    if hc.guessed then String.mk [hc.char] else "_"
  else
    String.mk [hc.char]

/-- `HangmanWord.__init__` (`src/__main__.py:65-72`): one fresh cell per
character of the word. The puzzle is the list of its cells. -/
def mkWord (s : List Char) : List HangmanChar := s.map HangmanChar.mk0

/-- `HangmanWord.get_chars` (`src/__main__.py:114-115`). -/
def getChars (w : List HangmanChar) : List Char := w.map HangmanChar.char

/-- `HangmanWord.display` (`src/__main__.py:123-124`):
`' '.join([char.display() for char in self.word])`. -/
def displayWord (w : List HangmanChar) : String :=
  String.intercalate " " (w.map HangmanChar.display)

/-- `HangmanWord.has_won` (`src/__main__.py:126-131`): the loop returns
`False` at the first guessable, unguessed cell and `True` otherwise. -/
def hasWon (w : List HangmanChar) : Bool :=
  w.all fun c => !c.guessable || c.guessed

/-- The game configuration namespace (`src/__main__.py:255-262`). -/
structure Config where
  difficulty : Int
  selection_range : Int
  use_punctuated : Bool
  lives : Int
  lose_life_on_duplicate_guess : Bool
deriving DecidableEq, Repr

/-- A `Guess` object after evaluation (`src/__main__.py:146-153`): its
character and its `correct` field (`some true` = Correct, `some false` =
Incorrect, `none` = Neutral / duplicate without life loss). -/
structure GuessRec where
  char : Char
  correct : Option Bool
deriving DecidableEq, Repr

/-- The mutable state of a `Game` (`src/__main__.py:193-211`), minus the
console collaborators. -/
structure Game where
  config : Config
  word : List HangmanChar
  guesses : List GuessRec
  lives : Int
deriving DecidableEq, Repr

/-- The reveal side effect inlined in `Guess.guess`
(`src/__main__.py:161-163`): set `guessed = True` on every cell whose
character equals the guessed character. -/
def reveal (w : List HangmanChar) (c : Char) : List HangmanChar :=
  w.map fun cell => if cell.char = c then { cell with guessed := true } else cell

/-- `Guess.guess` (`src/__main__.py:155-166`): returns the outcome and the
resulting puzzle (the only state it mutates besides the `correct` field of
the guess itself). -/
def guessEval (g : Game) (c : Char) : Option Bool × List HangmanChar :=
  if c ∈ g.guesses.map GuessRec.char then
    (if g.config.lose_life_on_duplicate_guess then some false else none, g.word)
  else
    if c ∈ getChars g.word then
      (some true, reveal g.word c)
    else
      (some false, g.word)

/-- `Game.turn` (`src/__main__.py:213-227`), with the solicited guess
character passed in place of the `input` call. Result `some true` = the
`Won` terminal transition, `some false` = `Lost`, `none` = still
`InProgress`. The UI painting calls are outside the model. -/
def turn (g : Game) (c : Char) : Option Bool × Game :=
  if hasWon g.word then
    (some true, g)
  else if g.lives = 0 then
    (some false, g)
  else
    let r := guessEval g c
    (none,
      { g with
        word := r.2
        lives := if r.1 = some false then g.lives - 1 else g.lives
        guesses := g.guesses ++ [⟨c, r.1⟩] })

/-- `Game.__init__` (`src/__main__.py:193-211`) after word selection:
fresh history, `lives = config.lives`, the selected word as puzzle. -/
def freshGame (cfg : Config) (w : List Char) : Game :=
  { config := cfg, word := mkWord w, guesses := [], lives := cfg.lives }

/-- Iterating `Game.turn` (the `start` loop of `src/__main__.py:236-239`)
over a list of solicited guess characters, keeping the state. -/
def runTurns (g : Game) : List Char → Game
  | [] => g
  | c :: cs => runTurns (turn g c).2 cs

/-- One entry of the `words.json` corpus as `_load_words` produces it:
a word together with its frequency. -/
structure Entry where
  word : String
  frequency : Int
deriving DecidableEq, Repr

/-- The sort key of `HangmanWord.from_config` (`src/__main__.py:96`):
`abs(word.frequency - config.difficulty)`. -/
def sortKey (difficulty : Int) (e : Entry) : Int :=
  |e.frequency - difficulty|

/-- `sorted(words, key=...)` (`src/__main__.py:94-97`). Python's `sorted`
is stable; `List.insertionSort` with a non-strict key comparison is a
stable sort, so equal-key entries keep their corpus order. -/
def sortedByKey (difficulty : Int) (words : List Entry) : List Entry :=
  List.insertionSort (fun a b => sortKey difficulty a ≤ sortKey difficulty b) words

/-- Python's `l[:n]` on a list, for an arbitrary integer `n`: the first
`n` elements when `n ≥ 0`, and all but the last `-n` elements when
`n < 0` (clamped to the empty list). -/
def pySliceTo (l : List Entry) (n : Int) : List Entry :=
  if 0 ≤ n then l.take n.toNat else l.take ((l.length : Int) + n).toNat

/-- The candidate pool `choices` of `HangmanWord.from_config`
(`src/__main__.py:94-97`). -/
def choicesPool (cfg : Config) (words : List Entry) : List Entry :=
  pySliceTo (sortedByKey cfg.difficulty words) cfg.selection_range

/-- Python `str.isalpha()` restricted to the ASCII range: nonempty and
every character alphabetic. Applied by `from_config` to `str(word)`,
which is the chosen entry's word verbatim. -/
def pyIsAlpha (s : String) : Bool :=
  !s.isEmpty && s.toList.all Char.isAlpha

/-- The loop guard of `src/__main__.py:101`: the drawn word is kept when
`config.use_punctuated` holds or the word is all-alphabetic. -/
def passesFilter (cfg : Config) (w : String) : Bool :=
  cfg.use_punctuated || pyIsAlpha w

/-- Outcome of `HangmanWord.from_config`: either a selected word, or the
`IndexError` that `random.choice` raises on an empty pool. -/
inductive SelOutcome where
  | ok (w : String)
  | indexError
deriving DecidableEq, Repr

/-- The `while True` resampling loop of `src/__main__.py:99-103`.
`r k % pool.length` is the index drawn by `random.choice` at iteration
`k` (on an empty pool the lookup fails: `IndexError`). `fuel` bounds how
many iterations we unfold; `none` means the loop has not terminated
within `fuel` iterations. -/
def selLoop (cfg : Config) (pool : List Entry) (r : Nat → Nat) :
    Nat → Nat → Option SelOutcome
  | _, 0 => none
  | k, fuel + 1 =>
    match pool[r k % pool.length]? with
    | none => some .indexError
    | some e =>
      if passesFilter cfg e.word then some (.ok e.word)
      else selLoop cfg pool r (k + 1) fuel

/-- `HangmanWord.from_config` (`src/__main__.py:74-104`), with the corpus
passed directly (in the source `_load_words` reads it from `words.json`)
and the random draws given by the stream `r`. -/
def from_config (cfg : Config) (words : List Entry) (r : Nat → Nat)
    (fuel : Nat) : Option SelOutcome :=
  selLoop cfg (choicesPool cfg words) r 0 fuel

/-- The resampling loop of `from_config` never terminates (for the given
draw stream), whatever fuel it is given. -/
def selDiverges (cfg : Config) (words : List Entry) (r : Nat → Nat) : Prop :=
  ∀ fuel, from_config cfg words r fuel = none

/-- First corpus entry minimizing `sortKey` (earliest entry on ties) —
the entry Python's stable `sorted` places first. -/
def firstMinEntry (difficulty : Int) : List Entry → Option Entry
  | [] => none
  | e :: rest =>
    match firstMinEntry difficulty rest with
    | none => some e
    | some m => some (if sortKey difficulty e ≤ sortKey difficulty m then e else m)

/-- Python's `needle in haystack` on strings: `needle` occurs as a
contiguous substring of `haystack` (the empty string always does). -/
def pySubstr (needle haystack : List Char) : Bool :=
  (List.range (haystack.length + 1)).any
    fun i => (haystack.drop i).take needle.length == needle

/-- The acceptance test of `Game.get_guess` (`src/__main__.py:229-234`)
on one candidate input line: `char in ascii_lowercase and char`. Python's
`in` on strings is a contiguous-substring test, and a string is truthy
iff nonempty; `get_guess` returns the first input line satisfying this. -/
def acceptsGuess (s : List Char) : Bool :=
  pySubstr s asciiLowercase && !s.isEmpty

/-- Folding `reveal` over a list of characters: the puzzle after a
sequence of reveals. -/
def revealList (w : List HangmanChar) (cs : List Char) : List HangmanChar :=
  cs.foldl reveal w

/-- Spec transcription of the `display()` contract (spec §4.2): each
guessable, unguessed cell renders as the placeholder underscore, guessed
cells render their actual character, non-guessable cells always render
their actual character, joined with a single separating space. The spec's
"lowercase Latin letter" (§3) is `Char.isLower`. -/
def specDisplay (w : List HangmanChar) : String :=
  String.intercalate " "
    (w.map fun cell =>
      if cell.char.isLower then
        if cell.guessed then String.mk [cell.char] else "_"
      else String.mk [cell.char])

theorem mem_asciiLowercase_iff (c : Char) :
    c ∈ asciiLowercase ↔ c.isLower = true := by
  constructor
  · intro h
    fin_cases h <;> decide
  · intro h
    have hb : 97 ≤ c.toNat ∧ c.toNat ≤ 122 := by
      simp only [Char.isLower, ge_iff_le, Bool.and_eq_true, decide_eq_true_eq] at h
      exact ⟨h.1, h.2⟩
    obtain ⟨n, hn⟩ : ∃ n, c.toNat = n := ⟨_, rfl⟩
    rw [← Char.ofNat_toNat c, hn]
    rw [hn] at hb
    obtain ⟨h1, h2⟩ := hb
    interval_cases n <;> decide

theorem guessable_eq_isLower (hc : HangmanChar) :
    hc.guessable = hc.char.isLower := by
  by_cases h : hc.char ∈ asciiLowercase
  · simp [HangmanChar.guessable, h, (mem_asciiLowercase_iff _).mp h]
  · have hl : hc.char.isLower = false := by
      rcases Bool.eq_false_or_eq_true hc.char.isLower with h' | h'
      · exact absurd ((mem_asciiLowercase_iff _).mpr h') h
      · exact h'
    simp [HangmanChar.guessable, h, hl]

theorem length_reveal (w : List HangmanChar) (c : Char) :
    (reveal w c).length = w.length := by
  simp [reveal]

theorem getElem?_reveal (w : List HangmanChar) (c : Char) (i : Nat) :
    (reveal w c)[i]? =
      (w[i]?).map fun cell =>
        if cell.char = c then { cell with guessed := true } else cell := by
  simp [reveal]

theorem reveal_reveal (w : List HangmanChar) (c : Char) :
    reveal (reveal w c) c = reveal w c := by
  simp only [reveal, List.map_map]
  congr 1
  funext cell
  by_cases h : cell.char = c <;> simp [Function.comp, h]

theorem reveal_of_not_mem {w : List HangmanChar} {c : Char}
    (h : c ∉ getChars w) : reveal w c = w := by
  have hcell : ∀ cell ∈ w,
      (if cell.char = c then { cell with guessed := true } else cell) = cell := by
    intro cell hcellmem
    rw [if_neg]
    intro hne
    exact h (by simpa [getChars] using ⟨cell, hcellmem, hne⟩)
  calc reveal w c = w.map id := List.map_congr_left hcell
    _ = w := List.map_id w

theorem guessed_of_mem_reveal {w : List HangmanChar} {c : Char} :
    ∀ cell ∈ reveal w c, cell.char = c → cell.guessed = true := by
  intro cell hmem hchar
  simp only [reveal, List.mem_map] at hmem
  obtain ⟨orig, _, rfl⟩ := hmem
  by_cases h : orig.char = c
  · simp [h]
  · rw [if_neg h] at hchar
    exact absurd hchar h

theorem revealList_eq_map (cs : List Char) :
    ∀ w : List HangmanChar,
      revealList w cs =
        w.map fun cell => ⟨cell.char, cell.guessed || decide (cell.char ∈ cs)⟩ := by
  induction cs with
  | nil =>
    intro w
    simp [revealList]
  | cons c cs ih =>
    intro w
    have : revealList w (c :: cs) = revealList (reveal w c) cs := rfl
    rw [this, ih, reveal, List.map_map]
    apply List.map_congr_left
    intro cell _
    by_cases h : cell.char = c <;> simp [Function.comp, h]

/-- C1: guess evaluation follows the three-rule policy in order. (1) If
the character already appears among prior guesses in the history, the
outcome is Neutral (`none`) when `lose_life_on_duplicate_guess` is false
and Incorrect (`some false`) when it is true, and the puzzle is not
modified; (2) otherwise, if the character appears in the puzzle's
character set, the outcome is Correct (`some true`) and the character is
revealed in the puzzle; (3) otherwise the outcome is Incorrect and the
puzzle is not modified. -/
theorem guess_follows_three_rule_policy (g : Game) (c : Char) :
    (c ∈ g.guesses.map GuessRec.char →
      guessEval g c =
        (if g.config.lose_life_on_duplicate_guess then some false else none,
          g.word))
    ∧ (c ∉ g.guesses.map GuessRec.char → c ∈ getChars g.word →
      guessEval g c = (some true, reveal g.word c)
      ∧ ∀ cell ∈ (guessEval g c).2, cell.char = c → cell.guessed = true)
    ∧ (c ∉ g.guesses.map GuessRec.char → c ∉ getChars g.word →
      guessEval g c = (some false, g.word)) := by
  refine ⟨fun hdup => ?_, fun hdup hin => ⟨?_, ?_⟩, fun hdup hout => ?_⟩
  · simp [guessEval, hdup]
  · simp [guessEval, hdup, hin]
  · simp only [guessEval, if_neg hdup, if_pos hin]
    exact guessed_of_mem_reveal
  · simp [guessEval, hdup, hout]

/-- Witness for C1: on a fresh game with word `hi`, guessing `h` (not in
the empty history, present in the word) is Correct and reveals `h`. -/
theorem guess_follows_three_rule_policy_witness :
    guessEval (freshGame ⟨20000, 400, false, 10, false⟩ ['h', 'i']) 'h' =
      (some true, reveal (freshGame ⟨20000, 400, false, 10, false⟩ ['h', 'i']).word 'h') :=
  ((guess_follows_three_rule_policy
      (freshGame ⟨20000, 400, false, 10, false⟩ ['h', 'i']) 'h').2.1
    (by decide) (by decide)).1

/-- C2: the turn transition. If the puzzle `has_won()` the turn yields the
terminal Won result (`some true`) and changes nothing; else if
`lives == 0` it yields the terminal Lost result (`some false`) and
changes nothing; otherwise it evaluates the solicited guess against the
session, appends its record to the history, decrements lives by exactly 1
iff the outcome is Incorrect (`some false`), and stays in progress
(`none`). -/
theorem turn_transition (g : Game) (c : Char) :
    (hasWon g.word = true → turn g c = (some true, g))
    ∧ (hasWon g.word = false → g.lives = 0 → turn g c = (some false, g))
    ∧ (hasWon g.word = false → g.lives ≠ 0 →
        turn g c =
          (none,
            { g with
              word := (guessEval g c).2
              lives :=
                if (guessEval g c).1 = some false then g.lives - 1 else g.lives
              guesses := g.guesses ++ [⟨c, (guessEval g c).1⟩] })) := by
  refine ⟨fun hwon => ?_, fun hwon hl => ?_, fun hwon hl => ?_⟩
  · simp [turn, hwon]
  · simp [turn, hwon, hl]
  · simp [turn, hwon, hl]

/-- Witness for C2: a concrete in-progress turn on word `hi` with a wrong
guess `x` appends the Incorrect record and decrements lives. -/
theorem turn_transition_witness :
    turn (freshGame ⟨20000, 400, false, 3, false⟩ ['h', 'i']) 'x' =
      (none,
        { freshGame ⟨20000, 400, false, 3, false⟩ ['h', 'i'] with
          word := (guessEval (freshGame ⟨20000, 400, false, 3, false⟩ ['h', 'i']) 'x').2
          lives :=
            if (guessEval (freshGame ⟨20000, 400, false, 3, false⟩ ['h', 'i']) 'x').1
                = some false then
              (freshGame ⟨20000, 400, false, 3, false⟩ ['h', 'i']).lives - 1
            else (freshGame ⟨20000, 400, false, 3, false⟩ ['h', 'i']).lives
          guesses :=
            (freshGame ⟨20000, 400, false, 3, false⟩ ['h', 'i']).guesses ++
              [⟨'x', (guessEval (freshGame ⟨20000, 400, false, 3, false⟩ ['h', 'i']) 'x').1⟩] }) :=
  (turn_transition (freshGame ⟨20000, 400, false, 3, false⟩ ['h', 'i']) 'x').2.2
    (by decide) (by decide)

/-- C8: `reveal` sets `guessed = true` on exactly the cells whose
character equals the revealed character and changes nothing else — the
length is unchanged and every cell keeps its character, with only
matching cells' `guessed` flags set; `reveal` is idempotent; and
revealing a character not present in the word leaves the puzzle
unchanged. -/
theorem reveal_frame_effect (w : List HangmanChar) (c : Char) :
    (reveal w c).length = w.length
    ∧ (∀ i : Nat,
        (reveal w c)[i]? =
          (w[i]?).map fun cell =>
            if cell.char = c then { cell with guessed := true } else cell)
    ∧ reveal (reveal w c) c = reveal w c
    ∧ (c ∉ getChars w → reveal w c = w) :=
  ⟨length_reveal w c, getElem?_reveal w c, reveal_reveal w c,
    fun h => reveal_of_not_mem h⟩

/-- Witness for C8: revealing `z`, absent from the one-cell word `h`,
leaves the puzzle unchanged. -/
theorem reveal_frame_effect_witness :
    reveal [⟨'h', false⟩] 'z' = [⟨'h', false⟩] :=
  (reveal_frame_effect [⟨'h', false⟩] 'z').2.2.2 (by decide)

/-- C3: `has_won()` is true iff every guessable cell is guessed;
non-guessable cells never count. Consequently, for a word containing only
guessable characters, after any sequence of reveals the puzzle is won iff
every character of the word has been revealed — false until every
character is revealed, true immediately after. -/
theorem has_won_iff_guessable_guessed (w : List HangmanChar) (s : List Char) :
    (hasWon w = true ↔ ∀ cell ∈ w, cell.guessable = true → cell.guessed = true)
    ∧ ((∀ c ∈ s, c ∈ asciiLowercase) →
        ∀ cs : List Char,
          hasWon (revealList (mkWord s) cs) = true ↔ ∀ c ∈ s, c ∈ cs) := by
  constructor
  · simp only [hasWon, List.all_eq_true, Bool.or_eq_true, Bool.not_eq_true']
    constructor
    · intro h cell hm hg
      rcases h cell hm with h' | h'
      · rw [hg] at h'
        cases h'
      · exact h'
    · intro h cell hm
      rcases Bool.eq_false_or_eq_true cell.guessable with h' | h'
      · exact Or.inr (h cell hm h')
      · exact Or.inl h'
  · intro hlow cs
    rw [revealList_eq_map]
    simp only [mkWord, List.map_map, hasWon, List.all_eq_true,
      List.forall_mem_map, Function.comp, HangmanChar.mk0]
    constructor
    · intro h c hc
      have hcell := h c hc
      simp [HangmanChar.guessable, hlow c hc] at hcell
      exact hcell
    · intro h c hc
      simp [HangmanChar.guessable, hlow c hc, h c hc]

/-- Witness for C3: on the all-guessable word `hi`, revealing both of its
characters wins the puzzle. -/
theorem has_won_iff_guessable_guessed_witness :
    hasWon (revealList (mkWord ['h', 'i']) ['h', 'i']) = true :=
  ((has_won_iff_guessable_guessed (mkWord ['h', 'i']) ['h', 'i']).2
    (by decide) ['h', 'i']).mpr (by decide)

/-- C9: `display()` renders each guessable cell with `guessed = false` as
the underscore placeholder, each guessable cell with `guessed = true` as
its actual character, and each non-guessable cell as its actual
character, joined with a single separating space — i.e. the code's
rendering equals the spec-transcribed `specDisplay`, where "guessable"
means the character is a lowercase Latin letter. -/
theorem display_renders_cells (w : List HangmanChar) :
    displayWord w = specDisplay w := by
  unfold displayWord specDisplay
  congr 1
  apply List.map_congr_left
  intro cell _
  rw [HangmanChar.display, guessable_eq_isLower]

/-- C6 (code behavior at the failing input): the acceptance test of
`Game.get_guess` is `char in ascii_lowercase and char`, a Python
substring test, so it accepts the two-character string `ab` — which is
then handed to the core as a guess — contradicting the claim that every
accepted string has length exactly 1. Single letters are accepted and
the empty string rejected, but so is nothing else ruled out. -/
theorem get_guess_accepts_multichar_substring :
    acceptsGuess ['a', 'b'] = true
    ∧ ['a', 'b'].length = 2
    ∧ acceptsGuess ['q'] = true
    ∧ acceptsGuess [] = false := by decide

theorem selLoop_none_of_all_fail {cfg : Config} {pool : List Entry}
    {r : Nat → Nat} (hne : pool ≠ [])
    (hfail : ∀ e ∈ pool, passesFilter cfg e.word = false) :
    ∀ (fuel k : Nat), selLoop cfg pool r k fuel = none := by
  intro fuel
  induction fuel with
  | zero => intro k; rfl
  | succ n ih =>
    intro k
    rw [selLoop]
    have hlen : 0 < pool.length := List.length_pos.mpr hne
    have hidx : r k % pool.length < pool.length := Nat.mod_lt _ hlen
    obtain ⟨e, hget⟩ : ∃ e, pool[r k % pool.length]? = some e :=
      ⟨pool[r k % pool.length], List.getElem?_eq_getElem hidx⟩
    rw [hget]
    show (if passesFilter cfg e.word = true then some (SelOutcome.ok e.word)
        else selLoop cfg pool r (k + 1) n) = none
    rw [if_neg (by simp [hfail e (List.getElem?_mem hget)])]
    exact ih (k + 1)

/-- C5 (code behavior at the failing input): when `use_punctuated` is
false and the single candidate-pool word `a-b` contains a non-alphabetic
character, the resampling loop of `from_config` never terminates,
whatever the random draws — no `ConfigError` is raised (none exists in
the code). -/
theorem from_config_all_punctuated_diverges :
    ∀ r : Nat → Nat,
      selDiverges ⟨0, 1, false, 10, false⟩ [⟨"a-b", 1⟩] r := by
  intro r fuel
  have hpool :
      choicesPool ⟨0, 1, false, 10, false⟩ [⟨"a-b", 1⟩] = [⟨"a-b", 1⟩] := by decide
  show selLoop _ (choicesPool _ _) r 0 fuel = none
  rw [hpool]
  exact selLoop_none_of_all_fail (by decide) (by decide) fuel 0

/-- C4 (code behavior at the failing inputs): `from_config` has no
`ConfigError`. On an empty corpus, and on `selection_range = 0` with a
nonempty corpus, the empty pool makes `random.choice` raise `IndexError`
instead; and with `selection_range = -1` (≤ 0) on a two-word corpus the
Python slice leaves a nonempty pool and a word is silently selected. -/
theorem from_config_reports_no_config_error :
    (∀ r : Nat → Nat,
      from_config ⟨0, 1, false, 10, false⟩ [] r 1 = some .indexError)
    ∧ (∀ r : Nat → Nat,
      from_config ⟨0, 0, false, 10, false⟩ [⟨"cat", 500⟩, ⟨"dog", 10⟩] r 1 =
        some .indexError)
    ∧ from_config ⟨0, -1, false, 10, false⟩ [⟨"cat", 500⟩, ⟨"dog", 10⟩]
        (fun _ => 0) 1 = some (.ok "dog") := by
  refine ⟨fun r => ?_, fun r => ?_, by decide⟩
  · have hpool : choicesPool ⟨0, 1, false, 10, false⟩ [] = [] := by decide
    show selLoop _ (choicesPool _ _) r 0 1 = some .indexError
    rw [hpool, selLoop]
    simp
  · have hpool :
        choicesPool ⟨0, 0, false, 10, false⟩ [⟨"cat", 500⟩, ⟨"dog", 10⟩] = [] := by
      decide
    show selLoop _ (choicesPool _ _) r 0 1 = some .indexError
    rw [hpool, selLoop]
    simp

theorem head?_orderedInsert (d : Int) (a : Entry) (l : List Entry) :
    (List.orderedInsert (fun x y => sortKey d x ≤ sortKey d y) a l).head? =
      some (match l.head? with
            | none => a
            | some b => if sortKey d a ≤ sortKey d b then a else b) := by
  cases l with
  | nil => rfl
  | cons b t =>
    rw [List.orderedInsert]
    by_cases h : sortKey d a ≤ sortKey d b <;> simp [h]

theorem head?_sortedByKey (d : Int) (words : List Entry) :
    (sortedByKey d words).head? = firstMinEntry d words := by
  induction words with
  | nil => rfl
  | cons e rest ih =>
    show (List.orderedInsert _ e (sortedByKey d rest)).head? = _
    rw [head?_orderedInsert, ih, firstMinEntry]
    cases firstMinEntry d rest <;> rfl

theorem firstMinEntry_spec (d : Int) :
    ∀ (words : List Entry) (m : Entry),
      firstMinEntry d words = some m →
        m ∈ words ∧ (∀ e ∈ words, sortKey d m ≤ sortKey d e)
        ∧ ∃ l₁ l₂, words = l₁ ++ m :: l₂ ∧
            ∀ e ∈ l₁, sortKey d m < sortKey d e := by
  intro words
  induction words with
  | nil => intro m h; cases h
  | cons e rest ih =>
    intro m h
    rw [firstMinEntry] at h
    cases hr : firstMinEntry d rest with
    | none =>
      rw [hr] at h
      cases h
      have hrest : rest = [] := by
        cases rest with
        | nil => rfl
        | cons e' rest' =>
          rw [firstMinEntry] at hr
          cases hfm : firstMinEntry d rest' <;> rw [hfm] at hr <;> cases hr
      subst hrest
      exact ⟨List.mem_singleton.mpr rfl,
        fun x hx => by rw [List.mem_singleton.mp hx],
        [], [], rfl, by simp⟩
    | some m' =>
      rw [hr] at h
      have h2 : some (if sortKey d e ≤ sortKey d m' then e else m') = some m := h
      obtain ⟨hmem', hmin', l₁, l₂, hsplit, hstrict⟩ := ih m' hr
      by_cases hle : sortKey d e ≤ sortKey d m'
      · rw [if_pos hle] at h2
        cases h2
        refine ⟨List.mem_cons_self _ _, ?_, [], rest, rfl, by simp⟩
        intro x hx
        rcases List.mem_cons.mp hx with hx | hx
        · rw [hx]
        · exact le_trans hle (hmin' x hx)
      · rw [if_neg hle] at h2
        cases h2
        have hlt : sortKey d m < sortKey d e := lt_of_not_le hle
        refine ⟨List.mem_cons_of_mem _ hmem', ?_, e :: l₁, l₂,
          by rw [hsplit, List.cons_append], ?_⟩
        · intro x hx
          rcases List.mem_cons.mp hx with hx | hx
          · rw [hx]; exact le_of_lt hlt
          · exact hmin' x hx
        · intro x hx
          rcases List.mem_cons.mp hx with hx | hx
          · rw [hx]; exact hlt
          · exact hstrict x hx

/-- C7 (amended): word selection with `selection_range = 1` is
deterministic provided the punctuation filter accepts the
closest-frequency entry (`use_punctuated` true or its word
all-alphabetic): for every corpus whose stably-first minimizer of
`|frequency - difficulty|` is `m`, the selector returns `m.word` on the
first iteration for every random stream, and `m` is the minimizer with
ties broken by corpus order — it belongs to the corpus, its key is
minimal, and every earlier entry has strictly larger key. -/
theorem selection_range_one_deterministic (cfg : Config) (words : List Entry)
    (m : Entry) (h1 : cfg.selection_range = 1)
    (hm : firstMinEntry cfg.difficulty words = some m)
    (hp : passesFilter cfg m.word = true) :
    (∀ (r : Nat → Nat) (fuel : Nat),
        from_config cfg words r (fuel + 1) = some (.ok m.word))
    ∧ m ∈ words
    ∧ (∀ e ∈ words, sortKey cfg.difficulty m ≤ sortKey cfg.difficulty e)
    ∧ ∃ l₁ l₂, words = l₁ ++ m :: l₂ ∧
        ∀ e ∈ l₁, sortKey cfg.difficulty m < sortKey cfg.difficulty e := by
  obtain ⟨hmem, hmin, hsplit⟩ := firstMinEntry_spec cfg.difficulty words m hm
  refine ⟨?_, hmem, hmin, hsplit⟩
  intro r fuel
  have hhead : (sortedByKey cfg.difficulty words).head? = some m := by
    rw [head?_sortedByKey, hm]
  obtain ⟨t, ht⟩ : ∃ t, sortedByKey cfg.difficulty words = m :: t := by
    cases hs : sortedByKey cfg.difficulty words with
    | nil => rw [hs] at hhead; cases hhead
    | cons a t =>
      rw [hs] at hhead
      cases hhead
      exact ⟨t, rfl⟩
  have hpool : choicesPool cfg words = [m] := by
    rw [choicesPool, ht, h1, pySliceTo, if_pos (by norm_num)]
    rfl
  show selLoop _ (choicesPool _ _) r 0 (fuel + 1) = _
  rw [hpool, selLoop]
  have hget : ([m] : List Entry)[r 0 % ([m] : List Entry).length]? = some m := by
    rw [List.length_singleton, Nat.mod_one]
    rfl
  rw [hget]
  show (if passesFilter cfg m.word = true then some (SelOutcome.ok m.word)
      else selLoop cfg [m] r 1 fuel) = some (.ok m.word)
  rw [if_pos hp]

/-- Witness for C7 (amended): the spec scenario — corpus
`[cat:500, dog:10]`, target frequency 0, `selection_range = 1` — selects
`dog` deterministically. -/
theorem selection_range_one_deterministic_witness :
    from_config ⟨0, 1, false, 10, false⟩ [⟨"cat", 500⟩, ⟨"dog", 10⟩]
      (fun _ => 0) 1 = some (.ok "dog") :=
  (selection_range_one_deterministic ⟨0, 1, false, 10, false⟩
      [⟨"cat", 500⟩, ⟨"dog", 10⟩] ⟨"dog", 10⟩ rfl (by decide) (by decide)).1
    (fun _ => 0) 0

/-- Counterexample for C7 as stated: the corpus `[{word:"e.g", freq:7}]`
is non-empty, yet with `selection_range = 1` and `use_punctuated = false`
the selector never returns any entry — the resampling loop diverges for
the constant-zero draw stream — so selection does not return the unique
closest-frequency entry for every non-empty corpus. -/
theorem selection_range_one_counterexample :
    selDiverges ⟨0, 1, false, 10, false⟩ [⟨"e.g", 7⟩] (fun _ => 0) := by
  intro fuel
  have hpool :
      choicesPool ⟨0, 1, false, 10, false⟩ [⟨"e.g", 7⟩] = [⟨"e.g", 7⟩] := by decide
  show selLoop _ (choicesPool _ _) _ 0 fuel = none
  rw [hpool]
  exact selLoop_none_of_all_fail (by decide) (by decide) fuel 0

theorem turn_config_fixed (g : Game) (c : Char) :
    (turn g c).2.config = g.config := by
  rw [turn]
  by_cases hwon : hasWon g.word <;> by_cases hl : g.lives = 0 <;>
    simp [hwon, hl]

theorem turn_lives_bounds (g : Game) (c : Char) (h0 : 0 ≤ g.lives) :
    0 ≤ (turn g c).2.lives ∧ (turn g c).2.lives ≤ g.lives := by
  by_cases hwon : hasWon g.word = true
  · rw [turn, if_pos hwon]
    exact ⟨h0, le_refl _⟩
  · by_cases hl : g.lives = 0
    · rw [turn, if_neg hwon, if_pos hl]
      exact ⟨h0, le_refl _⟩
    · rw [turn, if_neg hwon, if_neg hl]
      dsimp only
      by_cases ho : (guessEval g c).1 = some false
      · rw [if_pos ho]
        omega
      · rw [if_neg ho]
        omega

theorem runTurns_lives_bounds (cfg : Config) :
    ∀ (cs : List Char) (g : Game), 0 ≤ g.lives → g.lives ≤ cfg.lives →
      0 ≤ (runTurns g cs).lives ∧ (runTurns g cs).lives ≤ cfg.lives := by
  intro cs
  induction cs with
  | nil => intro g h0 h1; exact ⟨h0, h1⟩
  | cons c cs ih =>
    intro g h0 h1
    have hb := turn_lives_bounds g c h0
    exact ih (turn g c).2 hb.1 (le_trans hb.2 h1)

/-- C10: lives invariant. In every session state reachable by repeatedly
applying `turn` from a fresh session with `config.lives ≥ 0`,
`0 ≤ lives ≤ config.lives`; across a single non-terminal turn, lives
decreases by exactly 1 iff the guess outcome is Incorrect (`some false`,
which includes a duplicate guess under `lose_life_on_duplicate_guess`)
and is unchanged otherwise; and lives never drops below 0, the Lost
transition being taken before any guess when `lives = 0`. -/
theorem lives_invariant (cfg : Config) (w : List Char) (h0 : 0 ≤ cfg.lives) :
    (∀ cs : List Char,
      0 ≤ (runTurns (freshGame cfg w) cs).lives
      ∧ (runTurns (freshGame cfg w) cs).lives ≤ cfg.lives)
    ∧ (∀ (g : Game) (c : Char), hasWon g.word = false → g.lives ≠ 0 →
        ((guessEval g c).1 = some false → (turn g c).2.lives = g.lives - 1)
        ∧ ((guessEval g c).1 ≠ some false → (turn g c).2.lives = g.lives))
    ∧ (∀ (g : Game) (c : Char), 0 ≤ g.lives → 0 ≤ (turn g c).2.lives)
    ∧ (∀ (g : Game) (c : Char), hasWon g.word = false → g.lives = 0 →
        (turn g c).1 = some false ∧ (turn g c).2 = g) := by
  refine ⟨?_, ?_, ?_, ?_⟩
  · intro cs
    exact runTurns_lives_bounds cfg cs (freshGame cfg w) h0 (le_refl cfg.lives)
  · intro g c hwon hl
    constructor
    · intro ho
      rw [turn]
      simp [hwon, hl, ho]
    · intro ho
      rw [turn]
      simp [hwon, hl, ho]
  · intro g c h0g
    exact (turn_lives_bounds g c h0g).1
  · intro g c hwon hl
    rw [turn]
    simp [hwon, hl]

/-- Witness for C10: a fresh three-life session on word `hi`, after one
wrong guess `x`, still has lives within `[0, 3]`. -/
theorem lives_invariant_witness :
    0 ≤ (runTurns (freshGame ⟨0, 1, false, 3, false⟩ ['h', 'i']) ['x']).lives
    ∧ (runTurns (freshGame ⟨0, 1, false, 3, false⟩ ['h', 'i']) ['x']).lives ≤
        (3 : Int) :=
  (lives_invariant ⟨0, 1, false, 3, false⟩ ['h', 'i'] (by decide)).1 ['x']

end Hangman
